import Mathlib

/-!
Verification of the tile-pyramid generation core of the ArmaReforger map
tooling (`maps_core/generate_tiles.py`).

The script's pipeline is: auto-crop square padding (`auto_crop_padding`),
pad the raster to power-of-two dimensions, then for each zoom level from 0
to `max_zoom` compute the level dimensions by floor division, slice the
level raster into 256 x 256 tiles (padding partial edge tiles with the
black background color), detect all-black tiles, and write each tile to
`tiles/{name}_sat/{zoom}/{col}/{row}.webp`.

Pixels are modelled as RGB triples of naturals; a raster is its dimensions
together with a total pixel function (only the rectangle below the
dimensions is meaningful, matching PIL semantics where all accesses made by
the script stay in bounds).
-/

/-- RGB pixel value, as in the script's `Image.new('RGB', ...)` buffers. -/
abbrev Color : Type := Nat × Nat × Nat

/-- The background / padding color `(0, 0, 0)` used by the script. -/
def bg : Color := (0, 0, 0)

/-- A decoded raster: dimensions plus a pixel lookup, modelling a
`PIL.Image` buffer. -/
structure Raster where
  width : Nat
  height : Nat
  pix : Nat → Nat → Color

/-- The script's fixed `TILE_SIZE = 256`. -/
def TILE_SIZE : Nat := 256

/-- `abs(a - b)` on Python ints, for natural-number operands. -/
def absDiff (a b : Nat) : Nat := max a b - min a b

/-- `image.crop((x1, y1, x2, y2))`: a new raster of size
`(x2 - x1, y2 - y1)` whose pixel `(x, y)` is the source pixel
`(x1 + x, y1 + y)`. -/
def cropR (img : Raster) (x1 y1 x2 y2 : Nat) : Raster :=
  { width := x2 - x1, height := y2 - y1,
    pix := fun x y => img.pix (x1 + x) (y1 + y) }

/-- `auto_crop_padding(image, map_size)` from `generate_tiles.py`
(lines 88-127): if both dimensions are within 100 of the declared map
size, return the image unchanged; else if the image is square while the
declared size is not, crop anchored at the origin, keeping the full
length of the longer declared axis and truncating the other axis
proportionally (`int(...)` on the nonnegative quotient is floor
division); otherwise return the image unchanged. -/
def autoCropPadding (img : Raster) (mapSize : Nat × Nat) : Raster :=
  if absDiff img.width mapSize.1 < 100 ∧ absDiff img.height mapSize.2 < 100 then
    img
  else if img.width = img.height ∧ mapSize.1 ≠ mapSize.2 then
    if mapSize.2 < mapSize.1 then
      cropR img 0 0 img.width (img.width * mapSize.2 / mapSize.1)
    else
      cropR img 0 0 (img.height * mapSize.1 / mapSize.2) img.height
  else
    img

/-- Python's `int.bit_length`, computed with structural fuel: the fuel
argument bounds the recursion depth (`m ≤ fuel` always holds at call
sites), and each step strips one binary digit. -/
def bitLenAux : Nat → Nat → Nat
  | _, 0 => 0
  | 0, _ + 1 => 0
  | fuel + 1, m + 1 => bitLenAux fuel ((m + 1) / 2) + 1

/-- `n.bit_length()`: the number of binary digits of `n` (0 for 0). -/
def bitLength (n : Nat) : Nat := bitLenAux n n

/-- `1 << (n - 1).bit_length() if n > 0 else 1` from `generate_tiles.py`
lines 161-162: the padded power-of-two target for one dimension. -/
def nextPow2 (n : Nat) : Nat :=
  if 0 < n then 1 <<< bitLength (n - 1) else 1

/-- Lines 160-169 of `generate_tiles.py`: pad each dimension independently
to the next power of two; if the dimensions already match, the image is
kept, otherwise it is pasted at the origin of a black canvas of the padded
size. -/
def padCanvas (img : Raster) : Raster :=
  if img.width = nextPow2 img.width ∧ img.height = nextPow2 img.height then
    img
  else
    { width := nextPow2 img.width, height := nextPow2 img.height,
      pix := fun x y => if x < img.width ∧ y < img.height then img.pix x y else bg }

/-- `math.ceil(a / b)` for natural `a`, positive literal `b`. -/
def cdiv (a b : Nat) : Nat := (a + b - 1) / b

/-- Line 184/185 of `generate_tiles.py`: the dimension of the level raster
at a given zoom, `dim // 2 ** (max_zoom - zoom)`. -/
def scaledDim (dim maxZoom zoom : Nat) : Nat := dim / 2 ^ (maxZoom - zoom)

/-- `cols = math.ceil(scaled_width / TILE_SIZE)` (line 194). -/
def colCount (lvl : Raster) : Nat := cdiv lvl.width TILE_SIZE

/-- `rows = math.ceil(scaled_height / TILE_SIZE)` (line 195). -/
def rowCount (lvl : Raster) : Nat := cdiv lvl.height TILE_SIZE

/-- Lines 209-215: the extracted tile block
`scaled_img.crop((x1, y1, min(x1+256, w), min(y1+256, h)))`. -/
def extractTile (lvl : Raster) (col row : Nat) : Raster :=
  cropR lvl (col * TILE_SIZE) (row * TILE_SIZE)
    (min ((col + 1) * TILE_SIZE) lvl.width)
    (min ((row + 1) * TILE_SIZE) lvl.height)

/-- Lines 218-224: the `getextrema()` emptiness test — all channel extrema
are zero exactly when every pixel of the block equals the background. -/
def isBlack (t : Raster) : Bool :=
  (List.range t.height).all fun y =>
    (List.range t.width).all fun x => decide (t.pix x y = bg)

/-- Lines 227-231: if the extracted block is not already `256 x 256`,
paste it at the origin of a black `256 x 256` canvas. -/
def padTile (t : Raster) : Raster :=
  if t.width = TILE_SIZE ∧ t.height = TILE_SIZE then t
  else
    { width := TILE_SIZE, height := TILE_SIZE,
      pix := fun x y => if x < t.width ∧ y < t.height then t.pix x y else bg }

/-- One tile as handed to the writer: grid position, the emptiness flag
reported for diagnostics, and the padded pixel block. -/
structure WrittenTile where
  col : Nat
  row : Nat
  empty : Bool
  tile : Raster

/-- The tile produced for grid cell `(col, row)` of a level raster
(lines 207-235): extract, test for emptiness, pad. -/
def mkWrittenTile (lvl : Raster) (col row : Nat) : WrittenTile :=
  { col := col, row := row,
    empty := isBlack (extractTile lvl col row),
    tile := padTile (extractTile lvl col row) }

/-- The full slicing loop over one level raster (lines 203-235): columns
outer, rows inner, every grid cell produces exactly one tile. -/
def sliceLevel (lvl : Raster) : List WrittenTile :=
  (List.range (colCount lvl)).flatMap fun col =>
    (List.range (rowCount lvl)).map fun row => mkWrittenTile lvl col row

/-- The write loop with the script's exception behavior: `tile.save`
(line 235) is modelled by a `save` predicate; a failing save raises, so
the loop stops, returning the tiles persisted so far and an overall
success flag (`main` catches the exception and reports the map as
failed). -/
def saveLoop (save : Nat → Nat → Bool) : List WrittenTile → List (Nat × Nat) × Bool
  | [] => ([], true)
  | t :: rest =>
    if save t.col t.row then
      ((t.col, t.row) :: (saveLoop save rest).1, (saveLoop save rest).2)
    else ([], false)

/-- The decimal digit character for a digit `d < 10`, as produced by
Python's `str` on a natural number. -/
def digitChar (d : Nat) : Char := Char.ofNat (48 + d)

/-- The character data of `str(n)` for `n > 0`: decimal digits, most
significant first. -/
def natStrData (n : Nat) : List Char :=
  ((Nat.digits 10 n).map digitChar).reverse

/-- Python's `str(n)` for a natural number. -/
def natStr (n : Nat) : String :=
  if n = 0 then "0" else String.mk (natStrData n)

/-- The path of one tile as built by lines 173-234 of
`generate_tiles.py` with `pathlib` components:
`tiles / f"{map_name}_sat" / str(zoom) / str(col) / f"{row}.webp"`. -/
def tilePath (mapName : String) (zoom col row : Nat) : List String :=
  ["tiles", mapName ++ "_sat", natStr zoom, natStr col, natStr row ++ ".webp"]

/-- Round-to-nearest of the fraction `num / den`, halves up. Modelled from
the spec: the spec's crop contract says the proportional axis is
`round(w * ratio)`; the code's `int(...)` truncates instead, and this
definition is used to state that difference. -/
def specRound (num den : Nat) : Nat := (2 * num + den) / (2 * den)

/-- A concrete raster used to instantiate hypotheses: 600 x 1, uniformly
non-background. Its canvas is 1024 x 1, so tile column 3 lies entirely in
the padded margin. -/
def demoImg : Raster := ⟨600, 1, fun _ _ => (7, 7, 7)⟩

/-- A concrete 300 x 150 level raster, uniformly non-background. -/
def demoLevel : Raster := ⟨300, 150, fun _ _ => (1, 2, 3)⟩

/-- A concrete square 300 x 300 raster (scenario A of the spec). -/
def demoSquare : Raster := ⟨300, 300, fun _ _ => (9, 9, 9)⟩

theorem bitLenAux_spec : ∀ fuel m, m ≤ fuel →
    m < 2 ^ bitLenAux fuel m ∧
      (1 ≤ m → 1 ≤ bitLenAux fuel m ∧ 2 ^ (bitLenAux fuel m - 1) ≤ m) := by
  intro fuel
  induction fuel with
  | zero =>
    intro m hm
    have hm0 : m = 0 := Nat.le_zero.mp hm
    subst hm0
    exact ⟨Nat.zero_lt_one, fun h => absurd h (by decide)⟩
  | succ fuel ih =>
    intro m hm
    match m with
    | 0 => exact ⟨Nat.zero_lt_one, fun h => absurd h (by decide)⟩
    | k + 1 =>
      have hhalf : (k + 1) / 2 ≤ fuel := by omega
      obtain ⟨h1, h2⟩ := ih ((k + 1) / 2) hhalf
      have hrw : bitLenAux (fuel + 1) (k + 1) = bitLenAux fuel ((k + 1) / 2) + 1 := rfl
      rw [hrw]
      set b := bitLenAux fuel ((k + 1) / 2) with hb
      have hpow : 2 ^ (b + 1) = 2 * 2 ^ b := by rw [Nat.pow_succ]; ring
      constructor
      · omega
      · intro _
        refine ⟨by omega, ?_⟩
        by_cases hk : (k + 1) / 2 = 0
        · have : k = 0 := by omega
          subst this
          simp [hk, hb.symm ▸ (show bitLenAux fuel 0 = 0 by cases fuel <;> rfl)]
        · obtain ⟨hble, hlow⟩ := h2 (by omega)
          have hbm : b - 1 + 1 = b := by omega
          have : 2 ^ b = 2 * 2 ^ (b - 1) := by
            conv_lhs => rw [← hbm]
            rw [Nat.pow_succ]; ring
          simp only [Nat.add_sub_cancel]
          omega

theorem bitLength_spec (m : Nat) :
    m < 2 ^ bitLength m ∧ (1 ≤ m → 1 ≤ bitLength m ∧ 2 ^ (bitLength m - 1) ≤ m) :=
  bitLenAux_spec m m (Nat.le_refl m)

theorem nextPow2_eq_pow (n : Nat) : nextPow2 n = 2 ^ bitLength (n - 1) := by
  unfold nextPow2
  by_cases h : 0 < n
  · simp [h, Nat.shiftLeft_eq]
  · have : n = 0 := by omega
    subst this
    simp [bitLength, bitLenAux]

/-- C2: for every `n > 0`, `nextPow2 n = 1 << bitLength (n-1)` is a power
of two, is at least `n`, is below `2n`, equals `n` whenever `n` is itself
a power of two, and `nextPow2 0 = 1`. -/
theorem nextPow2_spec (n : Nat) (h : 0 < n) :
    (∃ k, nextPow2 n = 2 ^ k) ∧ n ≤ nextPow2 n ∧ nextPow2 n < 2 * n ∧
      (∀ j, n = 2 ^ j → nextPow2 n = n) ∧ nextPow2 0 = 1 := by
  have hpow := nextPow2_eq_pow n
  obtain ⟨ha, hb⟩ := bitLength_spec (n - 1)
  refine ⟨⟨bitLength (n - 1), hpow⟩, ?_, ?_, ?_, by decide⟩
  · rw [hpow]; omega
  · rw [hpow]
    by_cases h1 : n = 1
    · subst h1; simp [bitLength, bitLenAux]
    · have hn2 : 1 ≤ n - 1 := by omega
      obtain ⟨hge1, hlow⟩ := hb hn2
      have hsplit : 2 ^ bitLength (n - 1) = 2 * 2 ^ (bitLength (n - 1) - 1) := by
        conv_lhs => rw [show bitLength (n - 1) = bitLength (n - 1) - 1 + 1 by omega]
        rw [Nat.pow_succ]; ring
      omega
  · intro j hj
    rw [hpow]
    subst hj
    rcases Nat.eq_zero_or_pos j with hj0 | hjpos
    · subst hj0; simp [bitLength, bitLenAux]
    · have h2j : 2 ≤ 2 ^ j := by
        calc 2 = 2 ^ 1 := rfl
        _ ≤ 2 ^ j := Nat.pow_le_pow_right (by norm_num) hjpos
      have hm : 1 ≤ 2 ^ j - 1 := by omega
      obtain ⟨hge1, hlow⟩ := hb hm
      have h1 : j ≤ bitLength (2 ^ j - 1) := by
        have hle : 2 ^ j ≤ 2 ^ bitLength (2 ^ j - 1) := by omega
        exact (Nat.pow_le_pow_iff_right (by norm_num)).mp hle
      have h2 : bitLength (2 ^ j - 1) ≤ j := by
        have hlt : 2 ^ (bitLength (2 ^ j - 1) - 1) < 2 ^ j := by omega
        have := (Nat.pow_lt_pow_iff_right (by norm_num)).mp hlt
        omega
      rw [le_antisymm h2 h1]

/-- C2 witness at `n = 5`. -/
theorem nextPow2_spec_witness :
    0 < 5 ∧ ((∃ k, nextPow2 5 = 2 ^ k) ∧ 5 ≤ nextPow2 5 ∧ nextPow2 5 < 2 * 5 ∧
      (∀ j, 5 = 2 ^ j → nextPow2 5 = 5) ∧ nextPow2 0 = 1) :=
  ⟨by decide, nextPow2_spec 5 (by decide)⟩

/-- C1 counterexample: the level-dimension floor division is not exact for
every zoom in `[0, maxZoom]`.  A raster of width 2 is padded to canvas
width `nextPow2 2 = 2`; with `maxZoom = 2`, at `zoom = 0` the code
computes `2 // 2^2 = 0`, and `0 * 2^2 = 0 ≠ 2`. -/
theorem pyramid_exactness_cex :
    scaledDim (nextPow2 2) 2 0 * 2 ^ (2 - 0) ≠ nextPow2 2 := by decide

/-- C1 (amended): for every zoom in `[0, maxZoom]` the level dimension is
`canvasDim / 2^(maxZoom-zoom)` by floor division (the same holds for the
height, which goes through the identical computation); this division is
exact whenever `maxZoom - zoom ≤ log2(canvasDim)`, i.e.
`maxZoom - zoom ≤ bitLength (w - 1)` for a canvas padded from a raster of
dimension `w`; and at `zoom = maxZoom` the level dimension equals the
canvas dimension unchanged. -/
theorem pyramid_level_dims (w mz z : Nat) (hz : z ≤ mz)
    (hb : mz - z ≤ bitLength (w - 1)) :
    scaledDim (nextPow2 w) mz z = nextPow2 w / 2 ^ (mz - z) ∧
    scaledDim (nextPow2 w) mz z * 2 ^ (mz - z) = nextPow2 w ∧
    scaledDim (nextPow2 w) mz mz = nextPow2 w := by
  refine ⟨rfl, ?_, ?_⟩
  · show nextPow2 w / 2 ^ (mz - z) * 2 ^ (mz - z) = nextPow2 w
    rw [nextPow2_eq_pow, Nat.pow_div hb (by norm_num), ← Nat.pow_add]
    congr 1
    omega
  · show nextPow2 w / 2 ^ (mz - mz) = nextPow2 w
    simp [Nat.sub_self]

/-- C1 witness: raster width 300, canvas 512, `maxZoom = 2`, `zoom = 1`. -/
theorem pyramid_level_dims_witness :
    (1 ≤ 2 ∧ 2 - 1 ≤ bitLength (300 - 1)) ∧
    (scaledDim (nextPow2 300) 2 1 = nextPow2 300 / 2 ^ (2 - 1) ∧
     scaledDim (nextPow2 300) 2 1 * 2 ^ (2 - 1) = nextPow2 300 ∧
     scaledDim (nextPow2 300) 2 2 = nextPow2 300) :=
  ⟨⟨by decide, by decide⟩, pyramid_level_dims 300 2 1 (by decide) (by decide)⟩

/-- C10: the Geometry Resolver never enlarges the raster — the result of
`auto_crop_padding` has width and height bounded by the input's, so the
crop box `(0, 0, resultWidth, resultHeight)`, anchored at the origin,
always lies inside the input raster's bounds. -/
theorem autoCrop_never_grows (img : Raster) (ms : Nat × Nat) :
    (autoCropPadding img ms).width ≤ img.width ∧
    (autoCropPadding img ms).height ≤ img.height := by
  unfold autoCropPadding
  by_cases h1 : absDiff img.width ms.1 < 100 ∧ absDiff img.height ms.2 < 100
  · rw [if_pos h1]; exact ⟨Nat.le_refl _, Nat.le_refl _⟩
  · rw [if_neg h1]
    by_cases h2 : img.width = img.height ∧ ms.1 ≠ ms.2
    · rw [if_pos h2]
      obtain ⟨hsq, hne⟩ := h2
      by_cases h3 : ms.2 < ms.1
      · rw [if_pos h3]
        constructor
        · simp [cropR]
        · show img.width * ms.2 / ms.1 - 0 ≤ img.height
          have hdw : 0 < ms.1 := by omega
          have hle : img.width * ms.2 / ms.1 ≤ img.width * ms.1 / ms.1 :=
            Nat.div_le_div_right (Nat.mul_le_mul_left _ (by omega))
          rw [Nat.mul_div_cancel _ hdw] at hle
          omega
      · rw [if_neg h3]
        constructor
        · show img.height * ms.1 / ms.2 - 0 ≤ img.width
          have hdh : 0 < ms.2 := by omega
          have hle : img.height * ms.1 / ms.2 ≤ img.height * ms.2 / ms.2 :=
            Nat.div_le_div_right (Nat.mul_le_mul_left _ (by omega))
          rw [Nat.mul_div_cancel _ hdh] at hle
          omega
        · simp [cropR]
    · rw [if_neg h2]; exact ⟨Nat.le_refl _, Nat.le_refl _⟩

/-- C5 counterexample: a 301 x 301 raster with declared size `(3, 2)`
(tolerance inapplicable, square raster, rectangular declared size) is
cropped to height `int(301 * 2 / 3) = 200`, not `round(301 * 2 / 3) = 201`
— the code truncates, it does not round. -/
theorem autoCrop_round_cex :
    (autoCropPadding ⟨301, 301, fun _ _ => bg⟩ (3, 2)).height = 200 ∧
    specRound (301 * 2) 3 = 201 ∧
    (autoCropPadding ⟨301, 301, fun _ _ => bg⟩ (3, 2)).height ≠ specRound (301 * 2) 3 :=
  ⟨by decide, by decide, by decide⟩

/-- C5 (amended): when the tolerance does not apply, the raster is square
and the declared size is not, the Geometry Resolver crops anchored at the
origin to `(w, (w * dh) / dw)` (truncating division, not rounding) when
`dw > dh`, and to `((h * dw) / dh, h)` when `dw < dh`; in particular a
300 x 300 raster with declared size `(256, 128)` is cropped to 300 x 150
(exact, so truncation and rounding agree there). -/
theorem autoCrop_crop_dims (img : Raster) (ms : Nat × Nat)
    (htol : ¬(absDiff img.width ms.1 < 100 ∧ absDiff img.height ms.2 < 100))
    (hsq : img.width = img.height) (hne : ms.1 ≠ ms.2) :
    (ms.2 < ms.1 →
      (autoCropPadding img ms).width = img.width ∧
      (autoCropPadding img ms).height = img.width * ms.2 / ms.1) ∧
    (ms.1 < ms.2 →
      (autoCropPadding img ms).width = img.height * ms.1 / ms.2 ∧
      (autoCropPadding img ms).height = img.height) := by
  unfold autoCropPadding
  rw [if_neg htol, if_pos ⟨hsq, hne⟩]
  constructor
  · intro hgt
    rw [if_pos hgt]
    exact ⟨by simp [cropR], by simp [cropR]⟩
  · intro hlt
    rw [if_neg (by omega : ¬ ms.2 < ms.1)]
    exact ⟨by simp [cropR], by simp [cropR]⟩

/-- C5 witness: scenario A, the 300 x 300 raster with declared size
`(256, 128)`, cropped to 300 x 150. -/
theorem autoCrop_crop_dims_witness :
    (¬(absDiff demoSquare.width ((256, 128) : Nat × Nat).1 < 100 ∧
        absDiff demoSquare.height ((256, 128) : Nat × Nat).2 < 100) ∧
      demoSquare.width = demoSquare.height ∧
      ((256, 128) : Nat × Nat).1 ≠ ((256, 128) : Nat × Nat).2) ∧
    ((((256, 128) : Nat × Nat).2 < ((256, 128) : Nat × Nat).1 →
      (autoCropPadding demoSquare (256, 128)).width = demoSquare.width ∧
      (autoCropPadding demoSquare (256, 128)).height =
        demoSquare.width * ((256, 128) : Nat × Nat).2 / ((256, 128) : Nat × Nat).1) ∧
     (((256, 128) : Nat × Nat).1 < ((256, 128) : Nat × Nat).2 →
      (autoCropPadding demoSquare (256, 128)).width =
        demoSquare.height * ((256, 128) : Nat × Nat).1 / ((256, 128) : Nat × Nat).2 ∧
      (autoCropPadding demoSquare (256, 128)).height = demoSquare.height)) ∧
    (autoCropPadding demoSquare (256, 128)).height = 150 :=
  ⟨⟨by decide, by decide, by decide⟩,
    autoCrop_crop_dims demoSquare (256, 128) (by decide) (by decide) (by decide),
    by decide⟩

theorem sliceLevel_length (lvl : Raster) :
    (sliceLevel lvl).length = colCount lvl * rowCount lvl := by
  unfold sliceLevel
  rw [List.length_flatMap]
  have hfun : (List.length ∘ fun col =>
      (List.range (rowCount lvl)).map fun row => mkWrittenTile lvl col row) =
      fun _ => rowCount lvl := by
    funext c
    simp
  rw [hfun, List.map_const', List.length_range, List.sum_const_nat]

theorem mkWrittenTile_mem_sliceLevel (lvl : Raster) (c r : Nat)
    (hc : c < colCount lvl) (hr : r < rowCount lvl) :
    mkWrittenTile lvl c r ∈ sliceLevel lvl := by
  unfold sliceLevel
  exact List.mem_flatMap.mpr ⟨c, List.mem_range.mpr hc,
    List.mem_map.mpr ⟨r, List.mem_range.mpr hr, rfl⟩⟩

theorem mem_sliceLevel_elim (lvl : Raster) (t : WrittenTile) (ht : t ∈ sliceLevel lvl) :
    ∃ c r, c < colCount lvl ∧ r < rowCount lvl ∧ t = mkWrittenTile lvl c r := by
  unfold sliceLevel at ht
  obtain ⟨c, hc, ht2⟩ := List.mem_flatMap.mp ht
  obtain ⟨r, hr, rfl⟩ := List.mem_map.mp ht2
  exact ⟨c, r, List.mem_range.mp hc, List.mem_range.mp hr, rfl⟩

theorem padTile_width (t : Raster) : (padTile t).width = TILE_SIZE := by
  unfold padTile
  split
  case isTrue h => exact h.1
  case isFalse h => rfl

theorem padTile_height (t : Raster) : (padTile t).height = TILE_SIZE := by
  unfold padTile
  split
  case isTrue h => exact h.2
  case isFalse h => rfl

theorem extractTile_full_width (lvl : Raster) (c r : Nat)
    (hc : c + 1 < colCount lvl) : (extractTile lvl c r).width = TILE_SIZE := by
  have hcc : c + 1 < (lvl.width + 256 - 1) / 256 := hc
  have hle : (c + 1) * 256 ≤ lvl.width := by omega
  show min ((c + 1) * 256) lvl.width - c * 256 = 256
  rw [Nat.min_eq_left hle]
  omega

theorem extractTile_full_height (lvl : Raster) (c r : Nat)
    (hr : r + 1 < rowCount lvl) : (extractTile lvl c r).height = TILE_SIZE := by
  have hrr : r + 1 < (lvl.height + 256 - 1) / 256 := hr
  have hle : (r + 1) * 256 ≤ lvl.height := by omega
  show min ((r + 1) * 256) lvl.height - r * 256 = 256
  rw [Nat.min_eq_left hle]
  omega

theorem padTile_pix (t : Raster) (x y : Nat) (hx : x < TILE_SIZE) (hy : y < TILE_SIZE) :
    (padTile t).pix x y = if x < t.width ∧ y < t.height then t.pix x y else bg := by
  unfold padTile
  split
  case isTrue h =>
    have hcond : x < t.width ∧ y < t.height := by rw [h.1, h.2]; exact ⟨hx, hy⟩
    rw [if_pos hcond]
  case isFalse h => rfl

/-- C3: for a level raster with positive dimensions the Tile Slicer
produces exactly `ceil(lw/256) * ceil(lh/256)` tiles; every tile handed to
the writer is exactly `256 x 256` after padding; an extracted block is
smaller than `256 x 256` only in the last column or last row; and the
padded tile holds the block's pixels anchored at the origin with the
background color elsewhere. -/
theorem tile_slicer_spec (lvl : Raster) (hw : 0 < lvl.width) (hh : 0 < lvl.height) :
    (sliceLevel lvl).length = cdiv lvl.width TILE_SIZE * cdiv lvl.height TILE_SIZE ∧
    (∀ t ∈ sliceLevel lvl, t.tile.width = TILE_SIZE ∧ t.tile.height = TILE_SIZE) ∧
    (∀ c r, c < colCount lvl → r < rowCount lvl →
      ((extractTile lvl c r).width < TILE_SIZE ∨ (extractTile lvl c r).height < TILE_SIZE) →
      c = colCount lvl - 1 ∨ r = rowCount lvl - 1) ∧
    (∀ c r, c < colCount lvl → r < rowCount lvl → ∀ x y, x < TILE_SIZE → y < TILE_SIZE →
      (mkWrittenTile lvl c r).tile.pix x y =
        if x < (extractTile lvl c r).width ∧ y < (extractTile lvl c r).height
        then lvl.pix (c * TILE_SIZE + x) (r * TILE_SIZE + y) else bg) := by
  refine ⟨sliceLevel_length lvl, ?_, ?_, ?_⟩
  · intro t ht
    obtain ⟨c, r, hc, hr, rfl⟩ := mem_sliceLevel_elim lvl t ht
    exact ⟨padTile_width _, padTile_height _⟩
  · intro c r hc hr hsmall
    by_contra hcon
    push_neg at hcon
    obtain ⟨hc1, hr1⟩ := hcon
    have hcc : c + 1 < colCount lvl := by omega
    have hrr : r + 1 < rowCount lvl := by omega
    rcases hsmall with h | h
    · rw [extractTile_full_width lvl c r hcc] at h
      exact absurd h (lt_irrefl _)
    · rw [extractTile_full_height lvl c r hrr] at h
      exact absurd h (lt_irrefl _)
  · intro c r hc hr x y hx hy
    show (padTile (extractTile lvl c r)).pix x y = _
    rw [padTile_pix _ _ _ hx hy]
    rfl

/-- C3 witness: the 300 x 150 level raster, a 2 x 1 grid of padded
256 x 256 tiles. -/
theorem tile_slicer_spec_witness :
    0 < demoLevel.width ∧ 0 < demoLevel.height ∧
    (sliceLevel demoLevel).length =
      cdiv demoLevel.width TILE_SIZE * cdiv demoLevel.height TILE_SIZE ∧
    (sliceLevel demoLevel).length = 2 :=
  ⟨by decide, by decide, (tile_slicer_spec demoLevel (by decide) (by decide)).1, by decide⟩

/-- C4: slicing the `maxZoom` level (the canvas itself, line 191) and
reassembling the tiles at offsets `(col*256, row*256)` is the identity on
the canvas: each pixel `(x, y)` inside the canvas is covered by exactly
one produced tile, the one at grid cell `(x/256, y/256)`, and that tile's
pixel at `(x%256, y%256)` equals the canvas pixel. -/
theorem slice_reassemble_id (img : Raster) (x y : Nat)
    (hx : x < (padCanvas img).width) (hy : y < (padCanvas img).height) :
    mkWrittenTile (padCanvas img) (x / TILE_SIZE) (y / TILE_SIZE) ∈
      sliceLevel (padCanvas img) ∧
    (mkWrittenTile (padCanvas img) (x / TILE_SIZE) (y / TILE_SIZE)).tile.pix
      (x % TILE_SIZE) (y % TILE_SIZE) = (padCanvas img).pix x y ∧
    (∀ t ∈ sliceLevel (padCanvas img),
      t.col = x / TILE_SIZE → t.row = y / TILE_SIZE →
      t = mkWrittenTile (padCanvas img) (x / TILE_SIZE) (y / TILE_SIZE)) := by
  set lvl := padCanvas img with hlvl
  have hc : x / TILE_SIZE < colCount lvl := by
    have hx2 : x < lvl.width := hx
    have : x / 256 < (lvl.width + 256 - 1) / 256 := by omega
    exact this
  have hr : y / TILE_SIZE < rowCount lvl := by
    have hy2 : y < lvl.height := hy
    have : y / 256 < (lvl.height + 256 - 1) / 256 := by omega
    exact this
  refine ⟨mkWrittenTile_mem_sliceLevel lvl _ _ hc hr, ?_, ?_⟩
  · have hxT : x % TILE_SIZE < TILE_SIZE := Nat.mod_lt x (by decide)
    have hyT : y % TILE_SIZE < TILE_SIZE := Nat.mod_lt y (by decide)
    show (padTile (extractTile lvl (x / TILE_SIZE) (y / TILE_SIZE))).pix
      (x % TILE_SIZE) (y % TILE_SIZE) = lvl.pix x y
    rw [padTile_pix _ _ _ hxT hyT]
    have hbw : x % TILE_SIZE <
        (extractTile lvl (x / TILE_SIZE) (y / TILE_SIZE)).width := by
      show x % 256 < min ((x / 256 + 1) * 256) lvl.width - x / 256 * 256
      have hx2 : x < lvl.width := hx
      rcases Nat.le_total ((x / 256 + 1) * 256) lvl.width with h | h
      · rw [Nat.min_eq_left h]; omega
      · rw [Nat.min_eq_right h]; omega
    have hbh : y % TILE_SIZE <
        (extractTile lvl (x / TILE_SIZE) (y / TILE_SIZE)).height := by
      show y % 256 < min ((y / 256 + 1) * 256) lvl.height - y / 256 * 256
      have hy2 : y < lvl.height := hy
      rcases Nat.le_total ((y / 256 + 1) * 256) lvl.height with h | h
      · rw [Nat.min_eq_left h]; omega
      · rw [Nat.min_eq_right h]; omega
    rw [if_pos ⟨hbw, hbh⟩]
    show lvl.pix (x / 256 * 256 + x % 256) (y / 256 * 256 + y % 256) = lvl.pix x y
    have hA : x / 256 * 256 + x % 256 = x := by omega
    have hB : y / 256 * 256 + y % 256 = y := by omega
    rw [hA, hB]
  · intro t ht hcol hrow
    obtain ⟨c2, r2, hc2, hr2, rfl⟩ := mem_sliceLevel_elim lvl t ht
    have h1 : c2 = x / TILE_SIZE := hcol
    have h2 : r2 = y / TILE_SIZE := hrow
    rw [h1, h2]

/-- C4 witness: the 600 x 1 raster padded to its 1024 x 1 canvas, pixel
`(100, 0)`. -/
theorem slice_reassemble_id_witness :
    100 < (padCanvas demoImg).width ∧ 0 < (padCanvas demoImg).height ∧
    (mkWrittenTile (padCanvas demoImg) (100 / TILE_SIZE) (0 / TILE_SIZE)).tile.pix
      (100 % TILE_SIZE) (0 % TILE_SIZE) = (padCanvas demoImg).pix 100 0 :=
  ⟨by decide, by decide,
    (slice_reassemble_id demoImg 100 0 (by decide) (by decide)).2.1⟩

theorem isBlack_iff (t : Raster) :
    isBlack t = true ↔ ∀ x y, x < t.width → y < t.height → t.pix x y = bg := by
  unfold isBlack
  simp only [List.all_eq_true, List.mem_range, decide_eq_true_eq]
  constructor
  · intro h x y hx hy
    exact h y hy x hx
  · intro h y hy x hx
    exact h x y hx hy

/-- C6: a produced tile is reported empty exactly when every pixel of the
extracted block equals the background color `(0,0,0)`, and every grid
cell's tile — empty or not — is in the list handed to the writer. -/
theorem empty_tile_spec (lvl : Raster) (c r : Nat)
    (hc : c < colCount lvl) (hr : r < rowCount lvl) :
    ((mkWrittenTile lvl c r).empty = true ↔
      ∀ x y, x < (extractTile lvl c r).width → y < (extractTile lvl c r).height →
        lvl.pix (c * TILE_SIZE + x) (r * TILE_SIZE + y) = bg) ∧
    mkWrittenTile lvl c r ∈ sliceLevel lvl := by
  refine ⟨?_, mkWrittenTile_mem_sliceLevel lvl c r hc hr⟩
  show isBlack (extractTile lvl c r) = true ↔ _
  rw [isBlack_iff]
  exact Iff.rfl

set_option maxRecDepth 4000 in
/-- C6 witness: scenario E — on the 1024 x 1 canvas of the 600 x 1 raster,
tile `(3, 0)` lies entirely inside the padded margin; it is reported empty
and still appears in the written list. -/
theorem empty_tile_spec_witness :
    3 < colCount (padCanvas demoImg) ∧ 0 < rowCount (padCanvas demoImg) ∧
    mkWrittenTile (padCanvas demoImg) 3 0 ∈ sliceLevel (padCanvas demoImg) ∧
    (mkWrittenTile (padCanvas demoImg) 3 0).empty = true :=
  ⟨by decide, by decide,
    (empty_tile_spec (padCanvas demoImg) 3 0 (by decide) (by decide)).2, by decide⟩

theorem saveLoop_eq (save : Nat → Nat → Bool) (ts : List WrittenTile) :
    saveLoop save ts =
      ((ts.takeWhile fun t => save t.col t.row).map fun t => (t.col, t.row),
        ts.all fun t => save t.col t.row) := by
  induction ts with
  | nil => rfl
  | cons t rest ih =>
    by_cases h : save t.col t.row
    · simp [saveLoop, h, ih, List.takeWhile_cons, List.all_cons]
    · simp [saveLoop, h, List.takeWhile_cons, List.all_cons]

/-- C9 counterexample: on the 300 x 150 level (tiles `(0,0)` and `(1,0)`,
in loop order) a sink that fails exactly on tile `(0,0)` aborts the loop:
no tile is persisted, tile `(1,0)` is never handed to the sink, and the
run ends in the failure state — the loop does not continue past the
failed write. -/
theorem tile_write_abort_cex :
    saveLoop (fun c r => !(c == 0 && r == 0)) (sliceLevel demoLevel) = ([], false) ∧
    ((1, 0) : Nat × Nat) ∉
      (saveLoop (fun c r => !(c == 0 && r == 0)) (sliceLevel demoLevel)).1 :=
  ⟨by decide, by decide⟩

/-- C9 (amended): a failing tile write raises out of the slicing loop
(`tile.save`, line 235, has no handler inside `generate_tiles`): the tiles
persisted are exactly those strictly before the first failure in loop
order, and the run is reported a success exactly when every write
succeeded — `main` (lines 393-415) catches the exception and reports the
map as failed, so a run with any write failure is never reported as
success, but the remaining tiles are not written either. -/
theorem tile_write_abort (lvl : Raster) (save : Nat → Nat → Bool) :
    saveLoop save (sliceLevel lvl) =
      (((sliceLevel lvl).takeWhile fun t => save t.col t.row).map
          fun t => (t.col, t.row),
        (sliceLevel lvl).all fun t => save t.col t.row) :=
  saveLoop_eq save (sliceLevel lvl)

theorem str_ext (s t : String) (h : s.data = t.data) : s = t := by
  cases s
  cases t
  simp_all

theorem digitChar_toNat (d : Nat) (hd : d < 10) : (digitChar d).toNat = 48 + d := by
  interval_cases d <;> decide

theorem natStrData_inj (a b : Nat) (h : natStrData a = natStrData b) : a = b := by
  unfold natStrData at h
  have h2 : (Nat.digits 10 a).map digitChar = (Nat.digits 10 b).map digitChar := by
    have := congrArg List.reverse h
    simpa using this
  have h3 : (Nat.digits 10 a).map (fun d => (digitChar d).toNat) =
      (Nat.digits 10 b).map (fun d => (digitChar d).toNat) := by
    have := congrArg (List.map Char.toNat) h2
    simpa [List.map_map] using this
  have ha : (Nat.digits 10 a).map (fun d => (digitChar d).toNat) =
      (Nat.digits 10 a).map (fun d => 48 + d) :=
    List.map_congr_left fun d hd => digitChar_toNat d (Nat.digits_lt_base (by norm_num) hd)
  have hb : (Nat.digits 10 b).map (fun d => (digitChar d).toNat) =
      (Nat.digits 10 b).map (fun d => 48 + d) :=
    List.map_congr_left fun d hd => digitChar_toNat d (Nat.digits_lt_base (by norm_num) hd)
  rw [ha, hb] at h3
  have h4 : Nat.digits 10 a = Nat.digits 10 b := by
    have h5 := congrArg (List.map fun x => x - 48) h3
    rw [List.map_map, List.map_map] at h5
    have hcomp : ((fun x => x - 48) ∘ fun d : Nat => 48 + d) = id := by
      funext d
      simp only [Function.comp_apply, id_eq]
      omega
    rw [hcomp, List.map_id, List.map_id] at h5
    exact h5
  calc a = Nat.ofDigits 10 (Nat.digits 10 a) := (Nat.ofDigits_digits 10 a).symm
    _ = Nat.ofDigits 10 (Nat.digits 10 b) := by rw [h4]
    _ = b := Nat.ofDigits_digits 10 b

theorem natStr_eq_zero_str (b : Nat) (h : natStr b = "0") : b = 0 := by
  by_cases hb : b = 0
  · exact hb
  · exfalso
    unfold natStr at h
    rw [if_neg hb] at h
    have h2 : natStrData b = ['0'] := by
      have := congrArg String.data h
      simpa using this
    have h3 : (Nat.digits 10 b).map digitChar = ['0'] := by
      have := congrArg List.reverse h2
      simpa [natStrData] using this
    match hdig : Nat.digits 10 b with
    | [] => rw [hdig] at h3; simp at h3
    | d :: rest =>
      rw [hdig] at h3
      simp only [List.map_cons, List.cons.injEq] at h3
      obtain ⟨hd0, hrest⟩ := h3
      have hdlt : d < 10 :=
        Nat.digits_lt_base (by norm_num) (hdig ▸ List.mem_cons_self d rest)
      have htn := digitChar_toNat d hdlt
      have h48 : (digitChar d).toNat = 48 := by rw [hd0]; decide
      have hd : d = 0 := by omega
      have hrest0 : rest = [] := List.map_eq_nil_iff.mp hrest
      have hb0 : b = Nat.ofDigits 10 [(0 : Nat)] := by
        rw [← Nat.ofDigits_digits 10 b, hdig, hd, hrest0]
      simp [Nat.ofDigits] at hb0
      exact hb hb0


theorem natStr_inj (a b : Nat) (h : natStr a = natStr b) : a = b := by
  by_cases ha : a = 0
  · subst ha
    have h0 : natStr b = "0" := by rw [← h]; rfl
    exact (natStr_eq_zero_str b h0).symm
  · by_cases hb : b = 0
    · subst hb
      have h0 : natStr a = "0" := by rw [h]; rfl
      exact natStr_eq_zero_str a h0
    · unfold natStr at h
      rw [if_neg ha, if_neg hb] at h
      have hdata : natStrData a = natStrData b := by
        have hx : (String.mk (natStrData a)).data = (String.mk (natStrData b)).data :=
          congrArg String.data h
        exact hx
      exact natStrData_inj a b hdata

/-- C7: the path scheme is a pure total function of the inputs (it is a
function, so identical inputs yield the identical path, of the form
`tiles/{namespace}_sat/{zoom}/{col}/{row}.webp` with the code's fixed
variant suffix `_sat` and encoder extension `webp`), and for a fixed
namespace it is injective: two triples `(zoom, col, row)` yield the same
path exactly when they are equal. -/
theorem tilePath_inj (ns : String) (z c r z2 c2 r2 : Nat) :
    tilePath ns z c r = tilePath ns z2 c2 r2 ↔ z = z2 ∧ c = c2 ∧ r = r2 := by
  constructor
  · intro h
    unfold tilePath at h
    simp only [List.cons.injEq, and_true] at h
    obtain ⟨-, -, hz, hc, hr⟩ := h
    refine ⟨natStr_inj _ _ hz, natStr_inj _ _ hc, ?_⟩
    have hdata := congrArg String.data hr
    rw [String.data_append, String.data_append] at hdata
    exact natStr_inj _ _ (str_ext _ _ (List.append_cancel_right hdata))
  · rintro ⟨rfl, rfl, rfl⟩
    rfl
